import Mathlib

/-!
Verification of the DLA (diffusion-limited aggregation) simulator `dlaf.cpp`.

The development shallowly embeds the program:
* `Vec` mirrors the C++ `Vector` class (three `double` fields, modelled as
  reals), with `Length`, `DistanceSquared`, `Normalized`, `Lerp` translated
  from the source formulas.
* `Model` mirrors the `Model` class state: the simulation parameters, the
  bounding radius, the spatial index (a list of position/id pairs) and the
  stream of emitted records; `Model.add` is `Model::Add`.
* `Model.Nearest` is the nearest-neighbour query as a relation (the boost
  r-tree returns a value-initialised result on an empty index).
* `Model.WalkFrom` is an inductive big-step relation for `Model::Walk`,
  with the random draws exposed as constructor arguments.
* The round coordinator's commit filter (`commitRound`) is embedded over
  rational coordinates so that it is executable, and the concurrent batch
  filling loop is a small step relation (`WorkerStep` / `Reaches`).
-/

set_option maxHeartbeats 1000000

noncomputable section

/-- A point or vector, mirroring the C++ `Vector` class (fields `m_X`,
`m_Y`, `m_Z` of type `double`, modelled as reals). -/
@[ext] structure Vec where
  x : ℝ
  y : ℝ
  z : ℝ

namespace Vec

/-- Componentwise addition, `Vector::operator+`. -/
def add (a b : Vec) : Vec := ⟨a.x + b.x, a.y + b.y, a.z + b.z⟩

/-- Componentwise subtraction, `Vector::operator-`. -/
def sub (a b : Vec) : Vec := ⟨a.x - b.x, a.y - b.y, a.z - b.z⟩

/-- Scaling by a scalar, `Vector::operator*(double)`. -/
def mul (a : Vec) (c : ℝ) : Vec := ⟨a.x * c, a.y * c, a.z * c⟩

instance : Add Vec := ⟨add⟩

instance : Sub Vec := ⟨sub⟩

/-- The origin, `Vector()`. -/
def zero : Vec := ⟨0, 0, 0⟩

/-- Squared Euclidean norm, `Vector::LengthSquared`. -/
def lengthSquared (v : Vec) : ℝ := v.x * v.x + v.y * v.y + v.z * v.z

/-- Euclidean norm, `Vector::Length`. -/
def length (v : Vec) : ℝ := Real.sqrt (v.x * v.x + v.y * v.y + v.z * v.z)

/-- Euclidean distance, `Vector::Distance`. -/
def distance (a b : Vec) : ℝ :=
  Real.sqrt ((a.x - b.x) * (a.x - b.x) + (a.y - b.y) * (a.y - b.y) +
    (a.z - b.z) * (a.z - b.z))

/-- Squared Euclidean distance, `Vector::DistanceSquared`. -/
def distanceSquared (a b : Vec) : ℝ :=
  (a.x - b.x) * (a.x - b.x) + (a.y - b.y) * (a.y - b.y) +
    (a.z - b.z) * (a.z - b.z)

/-- Normalisation, `Vector::Normalized`: scale by `1 / Length()`,
with no guard against a zero-length vector. -/
def normalized (v : Vec) : Vec := v.mul (1 / v.length)

/-- Auxiliary dot product, used only in the proofs below. -/
def dot (a b : Vec) : ℝ := a.x * b.x + a.y * b.y + a.z * b.z

end Vec

/-- Linear interpolation from `a` toward `b` by distance `d`:
`Lerp(a, b, d) = a + (b - a).Normalized() * d`. -/
def Lerp (a b : Vec) (d : ℝ) : Vec := a + (b - a).normalized.mul d

/-- A binary particle record, mirroring the C `Record` struct: a `uint32_t`
parent id and three `float` coordinates (modelled as reals). -/
structure Record where
  parentID : ℕ
  x : ℝ
  y : ℝ
  z : ℝ

/-- The value of `static_cast<uint32_t>(n)` for an `int` argument `n`. -/
def uint32cast (n : ℤ) : ℕ := (n % 4294967296).toNat

/-- The `Model` class state: the four simulation parameters, the bounding
radius `m_BoundingRadius`, the spatial index `m_Index` (position/id pairs in
insertion order) and the stream of records written to stdout by `Add`. -/
structure Model where
  particleSpacing : ℝ
  attractionDistance : ℝ
  minMoveDistance : ℝ
  stickiness : ℝ
  boundingRadius : ℝ
  particles : List (Vec × ℕ)
  output : List Record

/-- `Model::Add`: insert the particle at the next id, extend the bounding
radius to `max(m_BoundingRadius, p.Length() + m_AttractionDistance)`, and
emit a record (the parent id cast to `uint32_t`). -/
def Model.add (m : Model) (p : Vec) (parent : ℤ) : Model :=
  { m with
    particles := m.particles ++ [(p, m.particles.length)],
    boundingRadius := max m.boundingRadius (p.length + m.attractionDistance),
    output := m.output ++ [⟨uint32cast parent, p.x, p.y, p.z⟩] }

/-- `Model::Nearest` as a relation on results. The boost r-tree query writes
the closest entry into a value-initialised `IndexValue`; when the index is
empty the query writes nothing and the value-initialised pair
`((0,0,0), 0)` is returned. -/
def Model.Nearest (m : Model) (p : Vec) (r : Vec × ℕ) : Prop :=
  (m.particles = [] ∧ r = (Vec.zero, 0)) ∨
  (r ∈ m.particles ∧ ∀ q ∈ m.particles, p.distance r.1 ≤ p.distance q.1)

/-- `Model::RandomStartingPosition`: `RandomInUnitSphere().Normalized() * d`
with `d = m_BoundingRadius`; the random sample is the argument `u`. -/
def Model.randomStartingPosition (m : Model) (u : Vec) : Vec :=
  u.normalized.mul m.boundingRadius

/-- `Model::ShouldReset`: `p.Length() > m_BoundingRadius * 2`. -/
def Model.shouldReset (m : Model) (p : Vec) : Prop :=
  p.length > m.boundingRadius * 2

/-- `Model::PlaceParticle`: `Lerp(parent, p, m_ParticleSpacing)`. -/
def Model.placeParticle (m : Model) (p parent : Vec) : Vec :=
  Lerp parent p m.particleSpacing

/-- The "move randomly" update of `Model::Walk`:
`p += MotionVector(p).Normalized() * max(m_MinMoveDistance, d - m_AttractionDistance)`,
where the random sample returned by `MotionVector` is the argument `u`. -/
def Model.moveStep (m : Model) (p u : Vec) (d : ℝ) : Vec :=
  p + u.normalized.mul (max m.minMoveDistance (d - m.attractionDistance))

open scoped Classical in
/-- The reset check at the end of a `Model::Walk` iteration: if
`ShouldReset(p)` then `p = RandomStartingPosition()` (random sample `u`),
else `p` is kept. -/
def Model.resetAdjust (m : Model) (q u : Vec) : Vec :=
  if m.shouldReset q then m.randomStartingPosition u else q

/-- Big-step relation for the loop of `Model::Walk`. `m.WalkFrom p j c res`
means: started at position `p`, the walk can terminate having made its
successful join attempt at position `j` against the parent at position `c`,
returning `res = (final position, parent id)`. Random draws (the stickiness
draw `r` and the unit-sphere samples `u`, `w`) are constructor arguments. -/
inductive Model.WalkFrom (m : Model) : Vec → Vec → Vec → Vec × ℕ → Prop
  | join {p c : Vec} {id : ℕ} {r : ℝ} :
      m.Nearest p (c, id) → p.distance c < m.attractionDistance →
      0 ≤ r → r < 1 → r ≤ m.stickiness →
      m.WalkFrom p p c (m.placeParticle p c, id)
  | bounce {p c j cp : Vec} {id : ℕ} {r : ℝ} {res : Vec × ℕ} :
      m.Nearest p (c, id) → p.distance c < m.attractionDistance →
      0 ≤ r → r < 1 → m.stickiness < r →
      m.WalkFrom (Lerp c p (m.attractionDistance + m.minMoveDistance)) j cp res →
      m.WalkFrom p j cp res
  | move {p c : Vec} {id : ℕ} {u w j cp : Vec} {res : Vec × ℕ} :
      m.Nearest p (c, id) → ¬ p.distance c < m.attractionDistance →
      u.lengthSquared < 1 → w.lengthSquared < 1 →
      m.WalkFrom (m.resetAdjust (m.moveStep p u (p.distance c)) w) j cp res →
      m.WalkFrom p j cp res

open scoped Classical in
/-- Option-valued variant of `Vector::Normalized`, making the division by
`Length()` explicit: `none` exactly when the length is zero (the case where
the C++ computes `1 / 0` and produces non-finite coordinates). -/
def Vec.normalizedChecked (v : Vec) : Option Vec :=
  if v.length = 0 then none else some v.normalized

/-- Option-valued variant of `Lerp`, failing exactly when `b - a` has zero
length (i.e. `a = b`), the case where `Normalized` divides by zero. -/
def lerpChecked (a b : Vec) (d : ℝ) : Option Vec :=
  (b - a).normalizedChecked.map (fun n => a + n.mul d)

/-- The `Model` constructed by `main`: the compile-time defaults
`DefaultParticleSpacing = 1`, `DefaultAttractionDistance = 3`,
`DefaultMinMoveDistance = 1`, `DefaultStickiness = 1`, bounding radius `0`,
empty index, no output yet. -/
def defaultModel : Model := ⟨1, 3, 1, 1, 0, [], []⟩

/-- The seed phase of `main`: fold every seed record read from stdin into
the model via `Model::Add`; if zero records were read, add a single
particle `Vector()` with the default parent `-1`. -/
def mainModel (seeds : List Record) : Model :=
  let m := seeds.foldl (fun acc r => acc.add ⟨r.x, r.y, r.z⟩ (r.parentID : ℤ)) defaultModel
  if seeds.length = 0 then m.add Vec.zero (-1) else m

/-- A model with default parameters, one seed particle at the origin and
bounding radius 3, used to instantiate theorems at concrete inputs. -/
def M0 : Model := ⟨1, 3, 1, 1, 3, [(Vec.zero, 0)], []⟩

/-- A model with default parameters and bounding radius 5, used to
instantiate the reset theorem at concrete inputs. -/
def M1 : Model := ⟨1, 3, 1, 1, 5, [(Vec.zero, 0)], []⟩

end

/-- A candidate position over an arbitrary linearly ordered commutative
ring: the commit filter of `Model::RunForever` only ever computes
`DistanceSquared` (a polynomial) and compares it, so it is embedded
generically and can be run over `ℚ` (exact `double` arithmetic idealised)
or, for concrete evaluation, over `ℤ`. -/
structure VecC (α : Type) where
  x : α
  y : α
  z : α
deriving DecidableEq

instance {α : Type} [Zero α] : Inhabited (VecC α) := ⟨⟨0, 0, 0⟩⟩

/-- `Vector::DistanceSquared` over the candidate coordinates. -/
def VecC.distanceSquared {α : Type} [LinearOrderedCommRing α] (a b : VecC α) : α :=
  (a.x - b.x) * (a.x - b.x) + (a.y - b.y) * (a.y - b.y) +
    (a.z - b.z) * (a.z - b.z)

/-- The per-round conflict threshold of `Model::RunForever`:
`std::pow(m_AttractionDistance * 5, 2)`. -/
def conflictThreshold {α : Type} [LinearOrderedCommRing α]
    (attractionDistance : α) : α :=
  (attractionDistance * 5) ^ 2

/-- The inner loop of the commit phase for batch index `i`: the flag `ok`
is true iff `items[i]` is at squared distance at least `t` from `items[j]`
for every `j < i` — every earlier batch entry, accepted or not. -/
def keepAt {α : Type} [LinearOrderedCommRing α] (t : α)
    (items : List (VecC α × ℤ)) (i : ℕ) : Bool :=
  (List.range i).all fun j =>
    decide (t ≤ VecC.distanceSquared (items.getD i default).1 (items.getD j default).1)

/-- The commit loop of `Model::RunForever`: iterate over the batch in append
order and hand `items[i]` to `Add` exactly when its `ok` flag is true.
Returns the accepted candidates in commit order. -/
def commitRound {α : Type} [LinearOrderedCommRing α] (t : α)
    (items : List (VecC α × ℤ)) : List (VecC α × ℤ) :=
  ((List.range items.length).filter (keepAt t items)).map
    fun i => items.getD i default

/-- State of the shared batch during one round of `Model::RunForever`:
the batch list `items` and each worker's local `done` flag. -/
structure RoundState where
  batch : List (Vec × ℕ)
  done : List Bool

/-- The state at the round's start barrier: empty batch, `numThreads`
workers each with `done = false`. -/
def initRound (numThreads : ℕ) : RoundState :=
  ⟨[], List.replicate numThreads false⟩

/-- One mutex-protected slice of a worker's loop body: worker `k`, whose
local `done` flag is still false, appends its walk result `it` and then sets
its flag to `items.size() >= batchSize` — the check happens only after the
push. -/
inductive WorkerStep (batchSize : ℕ) : RoundState → RoundState → Prop
  | push (s : RoundState) (k : ℕ) (it : Vec × ℕ) (hk : k < s.done.length)
      (hnd : s.done.get ⟨k, hk⟩ = false) :
      WorkerStep batchSize s
        ⟨s.batch ++ [it], s.done.set k (decide (batchSize ≤ s.batch.length + 1))⟩

/-- Reachability under interleaved worker steps within one round. -/
inductive Reaches (batchSize : ℕ) : RoundState → RoundState → Prop
  | refl (s : RoundState) : Reaches batchSize s s
  | tail {s t u : RoundState} : Reaches batchSize s t → WorkerStep batchSize t u →
      Reaches batchSize s u

/-- A concrete three-candidate batch (with `attractionDistance = 3`, so the
conflict threshold is `225`): the second candidate is 14 from the first
(rejected), the third is 14 from the second but 28 from the first. -/
def exBatch : List (VecC ℤ × ℤ) := [(⟨0, 0, 0⟩, 0), (⟨14, 0, 0⟩, 0), (⟨28, 0, 0⟩, 0)]

namespace Vec

@[simp] theorem add_x (a b : Vec) : (a + b).x = a.x + b.x := rfl

@[simp] theorem add_y (a b : Vec) : (a + b).y = a.y + b.y := rfl

@[simp] theorem add_z (a b : Vec) : (a + b).z = a.z + b.z := rfl

@[simp] theorem sub_x (a b : Vec) : (a - b).x = a.x - b.x := rfl

@[simp] theorem sub_y (a b : Vec) : (a - b).y = a.y - b.y := rfl

@[simp] theorem sub_z (a b : Vec) : (a - b).z = a.z - b.z := rfl

@[simp] theorem mul_x (a : Vec) (c : ℝ) : (a.mul c).x = a.x * c := rfl

@[simp] theorem mul_y (a : Vec) (c : ℝ) : (a.mul c).y = a.y * c := rfl

@[simp] theorem mul_z (a : Vec) (c : ℝ) : (a.mul c).z = a.z * c := rfl

theorem length_nonneg (v : Vec) : 0 ≤ v.length := Real.sqrt_nonneg _

theorem sumsq_nonneg (v : Vec) : 0 ≤ v.x * v.x + v.y * v.y + v.z * v.z :=
  add_nonneg (add_nonneg (mul_self_nonneg _) (mul_self_nonneg _)) (mul_self_nonneg _)

theorem length_eq_zero_iff (v : Vec) : v.length = 0 ↔ v = zero := by
  rw [length, Real.sqrt_eq_zero (sumsq_nonneg v)]
  constructor
  · intro h
    have hx : v.x = 0 := by nlinarith [sq_nonneg v.x, sq_nonneg v.y, sq_nonneg v.z]
    have hy : v.y = 0 := by nlinarith [sq_nonneg v.x, sq_nonneg v.y, sq_nonneg v.z]
    have hz : v.z = 0 := by nlinarith [sq_nonneg v.x, sq_nonneg v.y, sq_nonneg v.z]
    ext <;> simp [hx, hy, hz, zero]
  · intro h
    subst h
    simp [zero]

theorem length_pos_of_ne_zero {v : Vec} (h : v ≠ zero) : 0 < v.length :=
  lt_of_le_of_ne (length_nonneg v)
    (fun h0 => h ((length_eq_zero_iff v).mp h0.symm))

theorem length_mul (v : Vec) (c : ℝ) : (v.mul c).length = |c| * v.length := by
  rw [length, length, show (v.mul c).x * (v.mul c).x + (v.mul c).y * (v.mul c).y +
      (v.mul c).z * (v.mul c).z = c ^ 2 * (v.x * v.x + v.y * v.y + v.z * v.z) by
    simp [mul]; ring]
  rw [Real.sqrt_mul (sq_nonneg c), Real.sqrt_sq_eq_abs]

theorem length_normalized {v : Vec} (h : v ≠ zero) : v.normalized.length = 1 := by
  have hp := length_pos_of_ne_zero h
  rw [normalized, length_mul, abs_of_pos (by positivity)]
  field_simp

theorem dot_le_length_mul_length (a b : Vec) : a.dot b ≤ a.length * b.length := by
  have hcs : (a.dot b) ^ 2 ≤
      (a.x * a.x + a.y * a.y + a.z * a.z) * (b.x * b.x + b.y * b.y + b.z * b.z) := by
    rw [dot]
    nlinarith [sq_nonneg (a.x * b.y - a.y * b.x), sq_nonneg (a.x * b.z - a.z * b.x),
      sq_nonneg (a.y * b.z - a.z * b.y)]
  calc a.dot b ≤ |a.dot b| := le_abs_self _
    _ = Real.sqrt ((a.dot b) ^ 2) := (Real.sqrt_sq_eq_abs _).symm
    _ ≤ Real.sqrt ((a.x * a.x + a.y * a.y + a.z * a.z) *
        (b.x * b.x + b.y * b.y + b.z * b.z)) := Real.sqrt_le_sqrt hcs
    _ = a.length * b.length := by
        rw [length, length, Real.sqrt_mul (sumsq_nonneg a)]

theorem length_add_le (a b : Vec) : (a + b).length ≤ a.length + b.length := by
  have hsq : (a + b).x * (a + b).x + (a + b).y * (a + b).y + (a + b).z * (a + b).z ≤
      (a.length + b.length) ^ 2 := by
    have hdot := dot_le_length_mul_length a b
    have ha2 : a.length ^ 2 = a.x * a.x + a.y * a.y + a.z * a.z :=
      Real.sq_sqrt (sumsq_nonneg a)
    have hb2 : b.length ^ 2 = b.x * b.x + b.y * b.y + b.z * b.z :=
      Real.sq_sqrt (sumsq_nonneg b)
    have hexp : (a.length + b.length) ^ 2 =
        a.length ^ 2 + 2 * (a.length * b.length) + b.length ^ 2 := by ring
    rw [hexp, ha2, hb2]
    simp only [add_x, add_y, add_z]
    have : a.dot b ≤ a.length * b.length := hdot
    rw [dot] at this
    nlinarith
  calc (a + b).length = Real.sqrt ((a + b).x * (a + b).x + (a + b).y * (a + b).y +
      (a + b).z * (a + b).z) := rfl
    _ ≤ Real.sqrt ((a.length + b.length) ^ 2) := Real.sqrt_le_sqrt hsq
    _ = a.length + b.length := by
        rw [Real.sqrt_sq (add_nonneg (length_nonneg a) (length_nonneg b))]

theorem distance_eq_length_sub (a b : Vec) : a.distance b = (a - b).length := rfl

theorem distance_comm (a b : Vec) : a.distance b = b.distance a := by
  rw [distance, distance]
  ring_nf

theorem distance_nonneg (a b : Vec) : 0 ≤ a.distance b := Real.sqrt_nonneg _

theorem distance_triangle (a b c : Vec) :
    a.distance c ≤ a.distance b + b.distance c := by
  rw [distance_eq_length_sub, distance_eq_length_sub, distance_eq_length_sub]
  have h : a - c = (a - b) + (b - c) := by ext <;> simp
  rw [h]
  exact length_add_le _ _

end Vec

theorem Vec.sub_eq_zero_iff (a b : Vec) : a - b = Vec.zero ↔ a = b := by
  constructor
  · intro h
    have hx := congrArg Vec.x h
    have hy := congrArg Vec.y h
    have hz := congrArg Vec.z h
    simp [Vec.zero, sub_eq_zero] at hx hy hz
    ext <;> assumption
  · intro h
    subst h
    ext <;> simp [Vec.zero]

theorem Vec.mul_mul (v : Vec) (c d : ℝ) : (v.mul c).mul d = v.mul (c * d) := by
  ext <;> simp [Vec.mul] <;> ring

theorem add_sub_cancel_vec (a w : Vec) : (a + w) - a = w := by
  ext <;> simp

theorem lerp_sub (a b : Vec) (d : ℝ) :
    Lerp a b d - a = (b - a).normalized.mul d := by
  rw [Lerp, add_sub_cancel_vec]

theorem lerp_distance (a b : Vec) (d : ℝ) (hne : b ≠ a) (hd : 0 ≤ d) :
    (Lerp a b d).distance a = d := by
  have hba : b - a ≠ Vec.zero := fun h => hne ((Vec.sub_eq_zero_iff b a).mp h)
  rw [Vec.distance_eq_length_sub, lerp_sub, Vec.length_mul,
    Vec.length_normalized hba, abs_of_nonneg hd]
  ring

theorem lerp_ray (a b : Vec) (d : ℝ) (hne : b ≠ a) (hd : 0 < d) :
    ∃ t : ℝ, 0 < t ∧ Lerp a b d - a = (b - a).mul t := by
  have hba : b - a ≠ Vec.zero := fun h => hne ((Vec.sub_eq_zero_iff b a).mp h)
  have hlen := Vec.length_pos_of_ne_zero hba
  refine ⟨1 / (b - a).length * d, by positivity, ?_⟩
  rw [lerp_sub, Vec.normalized, Vec.mul_mul]

theorem VecC.distanceSquared_comm {α : Type} [LinearOrderedCommRing α]
    (a b : VecC α) : a.distanceSquared b = b.distanceSquared a := by
  rw [VecC.distanceSquared, VecC.distanceSquared]
  ring

theorem keepAt_iff {α : Type} [LinearOrderedCommRing α] (t : α)
    (items : List (VecC α × ℤ)) (i : ℕ) :
    keepAt t items i = true ↔
      ∀ j, j < i →
        t ≤ VecC.distanceSquared (items.getD i default).1 (items.getD j default).1 := by
  simp [keepAt, List.all_eq_true, List.mem_range, decide_eq_true_iff]

theorem pairwise_far_of_keep {α : Type} [LinearOrderedCommRing α] (t : α)
    (items : List (VecC α × ℤ)) :
    ∀ l : List ℕ, (∀ i ∈ l, keepAt t items i = true) → l.Pairwise (· < ·) →
      (l.map fun i => items.getD i default).Pairwise
        (fun a b => t ≤ VecC.distanceSquared a.1 b.1) := by
  intro l
  induction l with
  | nil => intro _ _; simp
  | cons a l ih =>
      intro hkeep hlt
      rw [List.map_cons, List.pairwise_cons]
      rcases List.pairwise_cons.mp hlt with ⟨hhead, htail⟩
      refine ⟨?_, ih (fun i hi => hkeep i (List.mem_cons_of_mem a hi)) htail⟩
      intro b hb
      rcases List.mem_map.mp hb with ⟨i, hi, rfl⟩
      have hik := hkeep i (List.mem_cons_of_mem a hi)
      have hai : a < i := hhead i hi
      have := (keepAt_iff t items i).mp hik a hai
      rw [VecC.distanceSquared_comm] at this
      exact this

theorem count_false_set_true (l : List Bool) (k : ℕ) (hk : k < l.length)
    (hf : l.get ⟨k, hk⟩ = false) :
    (l.set k true).count false + 1 = l.count false := by
  induction l generalizing k with
  | nil => exact absurd hk (Nat.not_lt_zero k)
  | cons b bs ih =>
      cases k with
      | zero =>
          have hb : b = false := hf
          subst hb
          simp [List.count_cons]
      | succ k =>
          have hk' : k < bs.length := Nat.lt_of_succ_lt_succ hk
          have hf' : bs.get ⟨k, hk'⟩ = false := hf
          have ih' := ih k hk' hf'
          show (b :: bs.set k true).count false + 1 = (b :: bs).count false
          rw [List.count_cons, List.count_cons]
          omega

theorem reaches_invariant (B w : ℕ) (hB : 1 ≤ B) {s : RoundState}
    (h : Reaches B (initRound w) s) :
    s.done.length = w ∧
      (B ≤ s.batch.length → s.batch.length + s.done.count false ≤ B + w - 1) := by
  induction h with
  | refl =>
      refine ⟨by simp [initRound], ?_⟩
      intro hle
      simp [initRound] at hle
      omega
  | tail hreach hstep ih =>
      rename_i t u
      rcases ih with ⟨hlen, hinv⟩
      rcases hstep with ⟨k, it, hk, hnd⟩
      refine ⟨by simpa using hlen, ?_⟩
      intro hle
      simp only [List.length_append, List.length_singleton] at hle ⊢
      by_cases hfull : B ≤ t.batch.length + 1
      · have hflag : decide (B ≤ t.batch.length + 1) = true := decide_eq_true hfull
        rw [hflag]
        have hcnt := count_false_set_true t.done k hk hnd
        have hcle : t.done.count false ≤ t.done.length := List.count_le_length _ _
        by_cases hprev : B ≤ t.batch.length
        · have := hinv hprev
          omega
        · omega
      · omega

theorem vec_ne_of_x {a b : Vec} (h : a.x ≠ b.x) : a ≠ b :=
  fun hab => h (congrArg Vec.x hab)

theorem Vec.length_x_axis (a : ℝ) : (⟨a, 0, 0⟩ : Vec).length = |a| := by
  show Real.sqrt (a * a + 0 * 0 + 0 * 0) = |a|
  rw [show a * a + 0 * 0 + 0 * 0 = a ^ 2 by ring, Real.sqrt_sq_eq_abs]

theorem Vec.distance_x_axis (a b : ℝ) :
    (⟨a, 0, 0⟩ : Vec).distance ⟨b, 0, 0⟩ = |a - b| := by
  show Real.sqrt ((a - b) * (a - b) + (0 - 0) * (0 - 0) + (0 - 0) * (0 - 0)) = |a - b|
  rw [show (a - b) * (a - b) + (0 - 0) * (0 - 0) + (0 - 0) * (0 - 0) = (a - b) ^ 2 by ring,
    Real.sqrt_sq_eq_abs]

theorem distance_add_ge (p c w : Vec) :
    p.distance c - w.length ≤ (p + w).distance c := by
  have htri := Vec.distance_triangle p (p + w) c
  have h1 : p.distance (p + w) = w.length := by
    rw [Vec.distance_eq_length_sub]
    have hxy : p - (p + w) = w.mul (-1) := by
      ext <;> simp [Vec.mul]
    rw [hxy, Vec.length_mul]
    simp
  linarith

/-- C4: every `Model::Add` sets the bounding radius to
`max(currentRadius, p.Length() + attractionDistance)`, so the radius after
an insertion is at least the radius before it, and it never shrinks along
any sequence of accepted particles. -/
theorem add_boundingRadius (m : Model) (p : Vec) (parent : ℤ) :
    (m.add p parent).boundingRadius =
      max m.boundingRadius (p.length + m.attractionDistance) ∧
    m.boundingRadius ≤ (m.add p parent).boundingRadius ∧
    ∀ ps : List (Vec × ℤ),
      m.boundingRadius ≤
        (ps.foldl (fun acc q => acc.add q.1 q.2) m).boundingRadius := by
  refine ⟨rfl, le_max_left _ _, ?_⟩
  intro ps
  induction ps generalizing m with
  | nil => exact le_refl _
  | cons q ps ih =>
      exact le_trans (le_max_left _ _) (ih (m.add q.1 q.2))

/-- C8: with zero seed records, `main` inserts exactly one particle, at the
origin, with the no-parent sentinel `static_cast<uint32_t>(-1) = 4294967295`,
through the ordinary `Model::Add` accept path (index insertion, bounding
radius update, output record). -/
theorem mainModel_nil_seed :
    mainModel [] = defaultModel.add Vec.zero (-1) ∧
    (mainModel []).particles = [(Vec.zero, 0)] ∧
    (mainModel []).output = [⟨4294967295, 0, 0, 0⟩] ∧
    (mainModel []).boundingRadius = 3 := by
  refine ⟨rfl, rfl, ?_, ?_⟩
  · show [] ++ [(⟨uint32cast (-1), Vec.zero.x, Vec.zero.y, Vec.zero.z⟩ : Record)] =
      [⟨4294967295, 0, 0, 0⟩]
    rfl
  · show max (0 : ℝ) (Vec.zero.length + 3) = 3
    rw [show Vec.zero.length = 0 by simp [Vec.zero, Vec.length]]
    norm_num

/-- C9: `Lerp` (and with it `PlaceParticle` and the rejection push) is
well-defined exactly when its endpoints differ: the checked variant that
makes `Normalized`'s division by `Length()` explicit succeeds and agrees
with `Lerp` when `b ≠ a`, and hits the division-by-zero branch (`none`)
when the two endpoints coincide. -/
theorem lerp_welldefined (a b : Vec) (d : ℝ) :
    (b ≠ a → lerpChecked a b d = some (Lerp a b d)) ∧
    (b = a → lerpChecked a b d = none) := by
  constructor
  · intro hne
    have hba : b - a ≠ Vec.zero := fun h => hne ((Vec.sub_eq_zero_iff b a).mp h)
    have hlen : ¬ (b - a).length = 0 :=
      fun h => hba ((Vec.length_eq_zero_iff _).mp h)
    rw [lerpChecked, Vec.normalizedChecked, if_neg hlen]
    rfl
  · intro heq
    subst heq
    have hz : (b - b).length = 0 :=
      (Vec.length_eq_zero_iff _).mpr (by ext <;> simp [Vec.zero])
    rw [lerpChecked, Vec.normalizedChecked, if_pos hz]
    rfl

/-- Witness for C9 at concrete inputs. -/
theorem lerp_welldefined_witness :
    lerpChecked Vec.zero ⟨1, 0, 0⟩ 2 = some (Lerp Vec.zero ⟨1, 0, 0⟩ 2) ∧
    lerpChecked Vec.zero Vec.zero 2 = none :=
  ⟨(lerp_welldefined Vec.zero ⟨1, 0, 0⟩ 2).1
      (vec_ne_of_x (by norm_num [Vec.zero])),
    (lerp_welldefined Vec.zero Vec.zero 2).2 rfl⟩

/-- C10: on an empty index, `Model::Nearest` signals no error: it returns
the value-initialised entry `((0,0,0), 0)` for every query point, and that
result is exactly what a genuinely seeded model with one particle at the
origin (id 0) also returns, so the two are indistinguishable. -/
theorem nearest_empty_default (q : Vec) :
    defaultModel.Nearest q (Vec.zero, 0) ∧
    (∀ r, defaultModel.Nearest q r → r = (Vec.zero, 0)) ∧
    (mainModel []).Nearest q (Vec.zero, 0) := by
  refine ⟨Or.inl ⟨rfl, rfl⟩, ?_, ?_⟩
  · intro r hr
    rcases hr with ⟨_, hre⟩ | ⟨hmem, _⟩
    · exact hre
    · exact absurd hmem (by simp [defaultModel])
  · refine Or.inr ⟨?_, ?_⟩
    · show (Vec.zero, 0) ∈ (mainModel []).particles
      have h1 : (mainModel []).particles = [(Vec.zero, 0)] := rfl
      rw [h1]
      exact List.mem_singleton_self _
    · intro p hp
      have hpe : p = (Vec.zero, 0) := by
        have h2 : (mainModel []).particles = [(Vec.zero, 0)] := rfl
        rw [h2] at hp
        exact List.mem_singleton.mp hp
      rw [hpe]

/-- Witness for C10 at a concrete query point. -/
theorem nearest_empty_default_witness :
    defaultModel.Nearest ⟨1, 2, 3⟩ (Vec.zero, 0) ∧
    ((Vec.zero, (0 : ℕ)) = (Vec.zero, 0)) ∧
    (mainModel []).Nearest ⟨1, 2, 3⟩ (Vec.zero, 0) :=
  ⟨(nearest_empty_default ⟨1, 2, 3⟩).1,
    (nearest_empty_default ⟨1, 2, 3⟩).2.1 (Vec.zero, 0)
      (nearest_empty_default ⟨1, 2, 3⟩).1,
    (nearest_empty_default ⟨1, 2, 3⟩).2.2⟩

/-- C3: `PlaceParticle(Q, P)` lies at exactly `particleSpacing` from `P`, on
the ray from `P` through `Q`; consequently every value returned by `Walk`
whose join position was distinct from the parent position lies at exactly
`particleSpacing` from the parent's pre-join position. -/
theorem placeParticle_spec (m : Model) :
    (∀ P Q : Vec, Q ≠ P → 0 < m.particleSpacing →
      (m.placeParticle Q P).distance P = m.particleSpacing ∧
      ∃ t : ℝ, 0 < t ∧ m.placeParticle Q P - P = (Q - P).mul t) ∧
    (∀ p j c res, m.WalkFrom p j c res → 0 ≤ m.particleSpacing → j ≠ c →
      res.1.distance c = m.particleSpacing) := by
  constructor
  · intro P Q hne hs
    exact ⟨lerp_distance P Q m.particleSpacing hne hs.le,
      lerp_ray P Q m.particleSpacing hne hs⟩
  · intro p j c res hwalk
    induction hwalk with
    | join hn hd h0 h1 hst =>
        intro hs hne
        exact lerp_distance _ _ _ hne hs
    | bounce hn hd h0 h1 hst hsub ih => exact ih
    | move hn hd hu hw hsub ih => exact ih

/-- A concrete terminating walk in `M0`: starting at `(2,0,0)`, the nearest
particle is the seed at the origin at distance `2 < 3`, and the stickiness
draw `0` joins immediately. -/
theorem walkM0_join :
    M0.WalkFrom ⟨2, 0, 0⟩ ⟨2, 0, 0⟩ Vec.zero
      (M0.placeParticle ⟨2, 0, 0⟩ Vec.zero, 0) := by
  have hn : M0.Nearest ⟨2, 0, 0⟩ (Vec.zero, 0) := by
    refine Or.inr ⟨?_, ?_⟩
    · show (Vec.zero, 0) ∈ [(Vec.zero, 0)]
      exact List.mem_singleton_self _
    · intro q hq
      have hq1 : q = (Vec.zero, 0) := List.mem_singleton.mp hq
      rw [hq1]
  have hd : (⟨2, 0, 0⟩ : Vec).distance Vec.zero < M0.attractionDistance := by
    rw [show Vec.zero = (⟨0, 0, 0⟩ : Vec) from rfl, Vec.distance_x_axis]
    show |(2 : ℝ) - 0| < 3
    rw [abs_of_nonneg (by norm_num)]
    norm_num
  exact @Model.WalkFrom.join M0 ⟨2, 0, 0⟩ Vec.zero 0 0 hn hd (le_refl 0)
    (by norm_num) (by norm_num [M0])

/-- Witness for C3 at concrete inputs, through both conjuncts. -/
theorem placeParticle_spec_witness :
    (M0.placeParticle ⟨2, 0, 0⟩ Vec.zero).distance Vec.zero = M0.particleSpacing ∧
    (M0.placeParticle ⟨2, 0, 0⟩ Vec.zero, (0 : ℕ)).1.distance Vec.zero =
      M0.particleSpacing :=
  ⟨((placeParticle_spec M0).1 Vec.zero ⟨2, 0, 0⟩
      (vec_ne_of_x (by norm_num [Vec.zero])) (by norm_num [M0])).1,
    (placeParticle_spec M0).2 ⟨2, 0, 0⟩ ⟨2, 0, 0⟩ Vec.zero _ walkM0_join
      (by norm_num [M0]) (vec_ne_of_x (by norm_num [Vec.zero]))⟩

/-- C5: whenever the freshly moved position triggers `ShouldReset` (distance
from the origin above `2 × boundingRadius`), the next query position is the
`RandomStartingPosition`, which lies at exactly `boundingRadius` from the
origin. -/
theorem reset_exact_radius (m : Model) (q w : Vec) (h : m.shouldReset q)
    (hw : w ≠ Vec.zero) (hR : 0 ≤ m.boundingRadius) :
    m.resetAdjust q w = m.randomStartingPosition w ∧
    (m.randomStartingPosition w).length = m.boundingRadius := by
  constructor
  · simp only [Model.resetAdjust]
    exact if_pos h
  · show (w.normalized.mul m.boundingRadius).length = m.boundingRadius
    rw [Vec.length_mul, Vec.length_normalized hw, mul_one, abs_of_nonneg hR]

/-- Witness for C5 at concrete inputs: radius `5`, a walker at `(11,0,0)`
(distance `11 > 10`), reset direction sample `(1,0,0)`. -/
theorem reset_exact_radius_witness :
    M1.resetAdjust ⟨11, 0, 0⟩ ⟨1, 0, 0⟩ = M1.randomStartingPosition ⟨1, 0, 0⟩ ∧
    (M1.randomStartingPosition ⟨1, 0, 0⟩).length = M1.boundingRadius :=
  reset_exact_radius M1 ⟨11, 0, 0⟩ ⟨1, 0, 0⟩
    (by
      show (⟨11, 0, 0⟩ : Vec).length > M1.boundingRadius * 2
      rw [Vec.length_x_axis, abs_of_nonneg (by norm_num)]
      norm_num [M1])
    (vec_ne_of_x (by norm_num [Vec.zero]))
    (by norm_num [M1])

/-- C6: when the join decision rejects, the walker at `p ≠ parent` is pushed
to `Lerp(parent, p, attractionDistance + minMoveDistance)`: a point at
exactly `attractionDistance + minMoveDistance` from the parent, on the ray
from the parent through the current position. -/
theorem bounce_reposition (m : Model) (parent p : Vec) (hne : p ≠ parent)
    (hpos : 0 < m.attractionDistance + m.minMoveDistance) :
    (Lerp parent p (m.attractionDistance + m.minMoveDistance)).distance parent =
      m.attractionDistance + m.minMoveDistance ∧
    ∃ t : ℝ, 0 < t ∧
      Lerp parent p (m.attractionDistance + m.minMoveDistance) - parent =
        (p - parent).mul t :=
  ⟨lerp_distance parent p _ hne hpos.le, lerp_ray parent p _ hne hpos⟩

/-- Witness for C6 at concrete inputs. -/
theorem bounce_reposition_witness :
    (Lerp Vec.zero ⟨2, 0, 0⟩ (M0.attractionDistance + M0.minMoveDistance)).distance
      Vec.zero = M0.attractionDistance + M0.minMoveDistance :=
  (bounce_reposition M0 Vec.zero ⟨2, 0, 0⟩
    (vec_ne_of_x (by norm_num [Vec.zero])) (by norm_num [M0])).1

/-- C7: in the searching branch the walker moves by exactly
`max(minMoveDistance, d − attractionDistance)` along a unit direction, and
when `d − attractionDistance ≥ minMoveDistance` the new position is still at
distance at least `attractionDistance` from the nearest particle, for every
direction. -/
theorem moveStep_spec (m : Model) (p c u : Vec) (hu : u ≠ Vec.zero)
    (hmm : 0 ≤ m.minMoveDistance) :
    (m.moveStep p u (p.distance c) - p).length =
      max m.minMoveDistance (p.distance c - m.attractionDistance) ∧
    (m.minMoveDistance ≤ p.distance c - m.attractionDistance →
      m.attractionDistance ≤ (m.moveStep p u (p.distance c)).distance c) := by
  have hmax0 : 0 ≤ max m.minMoveDistance (p.distance c - m.attractionDistance) :=
    le_trans hmm (le_max_left _ _)
  have hwlen : (u.normalized.mul
      (max m.minMoveDistance (p.distance c - m.attractionDistance))).length =
      max m.minMoveDistance (p.distance c - m.attractionDistance) := by
    rw [Vec.length_mul, Vec.length_normalized hu, mul_one, abs_of_nonneg hmax0]
  constructor
  · show ((p + u.normalized.mul
        (max m.minMoveDistance (p.distance c - m.attractionDistance))) - p).length = _
    rw [add_sub_cancel_vec]
    exact hwlen
  · intro hfar
    have hmaxeq : max m.minMoveDistance (p.distance c - m.attractionDistance) =
        p.distance c - m.attractionDistance := max_eq_right hfar
    have h := distance_add_ge p c (u.normalized.mul
      (max m.minMoveDistance (p.distance c - m.attractionDistance)))
    rw [hwlen] at h
    show m.attractionDistance ≤ ((p + u.normalized.mul
      (max m.minMoveDistance (p.distance c - m.attractionDistance))).distance c)
    rw [hmaxeq] at h ⊢
    linarith

/-- Witness for C7 at concrete inputs: walker at `(5,0,0)`, nearest particle
at the origin (`d = 5`), direction sample `(1,0,0)`. -/
theorem moveStep_spec_witness :
    (M0.moveStep ⟨5, 0, 0⟩ ⟨1, 0, 0⟩ ((⟨5, 0, 0⟩ : Vec).distance Vec.zero) -
        ⟨5, 0, 0⟩).length =
      max M0.minMoveDistance
        ((⟨5, 0, 0⟩ : Vec).distance Vec.zero - M0.attractionDistance) ∧
    M0.attractionDistance ≤
      (M0.moveStep ⟨5, 0, 0⟩ ⟨1, 0, 0⟩
        ((⟨5, 0, 0⟩ : Vec).distance Vec.zero)).distance Vec.zero :=
  ⟨(moveStep_spec M0 ⟨5, 0, 0⟩ Vec.zero ⟨1, 0, 0⟩
      (vec_ne_of_x (by norm_num [Vec.zero])) (by norm_num [M0])).1,
    (moveStep_spec M0 ⟨5, 0, 0⟩ Vec.zero ⟨1, 0, 0⟩
      (vec_ne_of_x (by norm_num [Vec.zero])) (by norm_num [M0])).2
      (by
        rw [show Vec.zero = (⟨0, 0, 0⟩ : Vec) from rfl, Vec.distance_x_axis,
          abs_of_nonneg (by norm_num)]
        norm_num [M0])⟩

/-- C1 (amended): the commit phase processes the batch in append order and
accepts `items[i]` if and only if its squared distance to every EARLIER
BATCH ENTRY `items[j]`, `j < i` — accepted or rejected — is at least the
threshold; consequently every pair of candidates accepted in the same round
is at squared distance at least the threshold. -/
theorem commitRound_spec {α : Type} [LinearOrderedCommRing α] (t : α)
    (items : List (VecC α × ℤ)) :
    (commitRound t items).Pairwise
      (fun a b => t ≤ VecC.distanceSquared a.1 b.1) ∧
    ∀ i, i < items.length →
      (keepAt t items i = true ↔
        ∀ j, j < i →
          t ≤ VecC.distanceSquared (items.getD i default).1
            (items.getD j default).1) := by
  constructor
  · rw [commitRound]
    apply pairwise_far_of_keep
    · intro i hi
      exact (List.mem_filter.mp hi).2
    · exact List.Pairwise.sublist (List.filter_sublist _) (List.pairwise_lt_range _)
  · intro i _
    exact keepAt_iff t items i

/-- Witness for C1 at the concrete batch: the accepted candidates of
`exBatch` are pairwise at squared distance at least the threshold, and the
first candidate (no earlier entries) is accepted. -/
theorem commitRound_spec_witness :
    (commitRound (conflictThreshold (3 : ℤ)) exBatch).Pairwise
      (fun a b => conflictThreshold (3 : ℤ) ≤ VecC.distanceSquared a.1 b.1) ∧
    keepAt (conflictThreshold (3 : ℤ)) exBatch 0 = true :=
  ⟨(commitRound_spec (conflictThreshold (3 : ℤ)) exBatch).1,
    ((commitRound_spec (conflictThreshold (3 : ℤ)) exBatch).2 0 (by decide)).mpr
      (fun j hj => absurd hj (Nat.not_lt_zero j))⟩

/-- C1 counterexample: with `attractionDistance = 3` (threshold `225`) the
batch `exBatch` commits only its first candidate, yet the third candidate is
at squared distance `784 ≥ 225` from that sole accepted candidate and is
still rejected — because the code compares against the REJECTED second entry
as well, the spec's "distance to every already-accepted candidate" rule
would have accepted it. -/
theorem commitRound_cex :
    commitRound (conflictThreshold (3 : ℤ)) exBatch = [(⟨0, 0, 0⟩, 0)] ∧
    conflictThreshold (3 : ℤ) ≤ VecC.distanceSquared ⟨28, 0, 0⟩ ⟨0, 0, 0⟩ ∧
    ((⟨28, 0, 0⟩ : VecC ℤ), (0 : ℤ)) ∉ commitRound (conflictThreshold (3 : ℤ)) exBatch := by
  refine ⟨by decide, by decide, by decide⟩

/-- A two-worker interleaving with `batchSize = 1` that reaches a batch of
two entries: the first worker pushes (batch full, flag set), then the second
worker — which has not yet observed the batch full — pushes again. -/
theorem reaches_two_of_one :
    Reaches 1 (initRound 2) ⟨[(Vec.zero, 0), (Vec.zero, 0)], [true, true]⟩ := by
  have h1 : WorkerStep 1 (initRound 2) ⟨[(Vec.zero, 0)], [true, false]⟩ :=
    WorkerStep.push (initRound 2) 0 (Vec.zero, 0) (by decide) (by decide)
  have h2 : WorkerStep 1 ⟨[(Vec.zero, 0)], [true, false]⟩
      ⟨[(Vec.zero, 0), (Vec.zero, 0)], [true, true]⟩ :=
    WorkerStep.push ⟨[(Vec.zero, 0)], [true, false]⟩ 1 (Vec.zero, 0)
      (by decide) (by decide)
  exact Reaches.tail (Reaches.tail (Reaches.refl _) h1) h2

/-- C2 (amended): in a round with `w` workers and `batchSize ≥ 1`, any
reachable batch has at most `batchSize + w − 1` entries — each worker checks
the size only after pushing, so each of the other workers can push once more
after the batch is already full. -/
theorem batch_length_bound (B w : ℕ) (hB : 1 ≤ B) {s : RoundState}
    (h : Reaches B (initRound w) s) : s.batch.length ≤ B + w - 1 := by
  rcases reaches_invariant B w hB h with ⟨hlen, hinv⟩
  by_cases hc : B ≤ s.batch.length
  · have h1 := hinv hc
    omega
  · omega

/-- Witness for C2 at the concrete two-worker interleaving. -/
theorem batch_length_bound_witness :
    (⟨[(Vec.zero, 0), (Vec.zero, 0)], [true, true]⟩ : RoundState).batch.length ≤
      1 + 2 - 1 :=
  batch_length_bound 1 2 (by decide) reaches_two_of_one

/-- C2 counterexample: with `batchSize = 1` and two workers, a state whose
batch has 2 entries is reachable, so the batch list can exceed `batchSize`
entries. -/
theorem batch_overshoot_cex :
    Reaches 1 (initRound 2) ⟨[(Vec.zero, 0), (Vec.zero, 0)], [true, true]⟩ ∧
    ¬ (⟨[(Vec.zero, 0), (Vec.zero, 0)], [true, true]⟩ : RoundState).batch.length ≤ 1 :=
  ⟨reaches_two_of_one, by decide⟩
